import Mathlib

/-!
Verification of the netscape-cookie parser (src/lib.rs) and its cookie
adapter (src/feature_cookie.rs) against the natural-language specification.

The embedding works at the byte level: the input of `parse` is a `List Nat`
of bytes.  Line reading mirrors `Cursor::read_line` from the Rust standard
library (split the buffer at each 0x0A byte, keeping the terminator with its
line, and validate each chunk as UTF-8, surfacing an InvalidData I/O error
on failure).  Strings inside records are kept as byte lists, which is exact
because all delimiters and literals involved are ASCII and UTF-8 is
ASCII-transparent.

A deliberate limitation: chrono panics (for timestamps outside its
representable range, roughly beyond year 262143) are not modelled; the
timestamp stored by the code is modelled as the exact `u64 as i64` cast of
the parsed value, and theorems whose truth would otherwise pass through the
panicking region carry an explicit bound on the expires value.
-/

/-! ## Data model, from src/lib.rs -/

/-- Expiry of a cookie: `Session`, or an absolute UTC instant.  The source
stores a chrono `DateTime<Utc>` built with `NaiveDateTime::from_timestamp`;
we model it by its Unix-second timestamp, an `Int` (the source computes it
as `expires as i64`). -/
inductive CookieExpires
  | Session
  | DateTime (ts : Int)
deriving DecidableEq, Repr

/-- One parsed cookie line, mirroring `struct Cookie` in src/lib.rs.
String fields are byte lists. -/
structure Cookie where
  http_only : Bool
  domain : List Nat
  include_subdomains : Bool
  path : List Nat
  secure : Bool
  expires : CookieExpires
  name : List Nat
  value : List Nat
deriving DecidableEq, Repr

/-- The subset of `std::io::ErrorKind` values relevant here.  Only
`InvalidData` is ever produced by an in-memory cursor (from the UTF-8 check
in `read_line`); the other constructors exist so that recording the kind is
informative. -/
inductive IoErrorKind
  | NotFound
  | PermissionDenied
  | InvalidData
  | UnexpectedEof
  | Other
deriving DecidableEq, Repr

/-- Mirror of `std::str::ParseBoolError`, a unit struct. -/
inductive ParseBoolError
  | mk
deriving DecidableEq, Repr

/-- Mirror of `std::num::IntErrorKind` (the cases reachable from
`u64::from_str`). -/
inductive IntErrorKind
  | Empty
  | InvalidDigit
  | PosOverflow
deriving DecidableEq, Repr

/-- Mirror of `std::num::ParseIntError`. -/
structure ParseIntError where
  kind : IntErrorKind
deriving DecidableEq, Repr

/-- Mirror of `enum ParseError` in src/lib.rs.  `IoError` carries the
`io::ErrorKind` and the error message, as in
`impl From<io::Error> for ParseError`. -/
inductive ParseError
  | IoError (kind : IoErrorKind) (msg : String)
  | DomainMissing
  | IncludeSubdomainsMissing
  | IncludeSubdomainsInvalid (e : ParseBoolError)
  | PathMissing
  | SecureMissing
  | SecureInvalid (e : ParseBoolError)
  | ExpiresMissing
  | ExpiresInvalid (e : ParseIntError)
  | NameMissing
  | ValueMissing
  | TooManyElements
deriving DecidableEq, Repr

/-! ## Byte-level primitives from the Rust standard library -/

/-- Bytes of the ASCII string literal used in a Lean string; exact for the
ASCII inputs used throughout (UTF-8 is ASCII-transparent). -/
def bytesOfAscii (s : String) : List Nat :=
  s.data.map Char.toNat

/-- Continuation byte test of the UTF-8 validator: `0x80 ≤ b ≤ 0xBF`. -/
def utf8Cont (b : Nat) : Bool :=
  128 ≤ b && b ≤ 191

/-- Worker of the UTF-8 validator.  The first argument lists the pending
constraints on continuation bytes, each an inclusive range: a lead byte
pushes the ranges its sequence requires (exactly the ranges accepted by
`core::str::from_utf8`, including the tightened or loosened first
continuation ranges of 0xE0, 0xED, 0xF0 and 0xF4 that exclude overlong
encodings and surrogates). -/
def utf8Go : List (Nat × Nat) → List Nat → Bool
  | [], [] => true
  | _ :: _, [] => false
  | [], b :: rest =>
    if b ≤ 127 then utf8Go [] rest
    else if 194 ≤ b && b ≤ 223 then utf8Go [(128, 191)] rest
    else if b = 224 then utf8Go [(160, 191), (128, 191)] rest
    else if (225 ≤ b && b ≤ 236) || (238 ≤ b && b ≤ 239) then
      utf8Go [(128, 191), (128, 191)] rest
    else if b = 237 then utf8Go [(128, 159), (128, 191)] rest
    else if b = 240 then utf8Go [(144, 191), (128, 191), (128, 191)] rest
    else if 241 ≤ b && b ≤ 243 then
      utf8Go [(128, 191), (128, 191), (128, 191)] rest
    else if b = 244 then utf8Go [(128, 143), (128, 191), (128, 191)] rest
    else false
  | (lo, hi) :: reqs, b :: rest =>
    if lo ≤ b && b ≤ hi then utf8Go reqs rest else false

/-- UTF-8 validity of a byte list, exactly the acceptance condition of
`core::str::from_utf8`, which `read_line` applies to each chunk of bytes it
reads. -/
def utf8Valid (l : List Nat) : Bool :=
  utf8Go [] l

/-- One step of the line chunker: prepend byte `b` to a chunk list.  A 0x0A
byte starts a fresh chunk that retains the terminator, mirroring how each
`read_line` call stops right after a newline. -/
def chunkStep (b : Nat) (acc : List (List Nat)) : List (List Nat) :=
  if b = 10 then [10] :: acc
  else
    match acc with
    | [] => [[b]]
    | ch :: rest => (b :: ch) :: rest

/-- The successive chunks returned by the `read_line` loop of `parse`: each
chunk is one line including its terminating 0x0A if present; a final
unterminated fragment forms a last chunk without terminator; the terminating
`read_line` that returns 0 produces no chunk. -/
def toChunks (l : List Nat) : List (List Nat) :=
  l.foldr chunkStep []

/-- One step of `str::split` with separator tab (0x09): empty fields are
preserved. -/
def tabStep (b : Nat) (acc : List (List Nat)) : List (List Nat) :=
  if b = 9 then [] :: acc
  else
    match acc with
    | [] => [[b]]
    | f :: rest => (b :: f) :: rest

/-- Mirror of `s.split('\t')` collected to a list: splitting the empty
string yields one empty field. -/
def splitTab (l : List Nat) : List (List Nat) :=
  l.foldr tabStep [[]]

/-- Mirror of `str::to_ascii_lowercase`: map bytes 65..90 to 97..122. -/
def asciiLower (l : List Nat) : List Nat :=
  l.map fun b => if 65 ≤ b && b ≤ 90 then b + 32 else b

/-- Bytes of the literal "true". -/
def trueBytes : List Nat := [116, 114, 117, 101]

/-- Bytes of the literal "false". -/
def falseBytes : List Nat := [102, 97, 108, 115, 101]

/-- Mirror of `bool::from_str`: exactly the strings "true" and "false" are
accepted. -/
def parseBool (l : List Nat) : Option Bool :=
  if l = trueBytes then some true
  else if l = falseBytes then some false
  else none

/-- Largest value of a `u64`. -/
def u64Max : Nat := 18446744073709551615

/-- Digit-accumulation loop of `u64::from_str`: each byte must be an ASCII
digit (else `InvalidDigit`), and the accumulator must stay within `u64`
range (else `PosOverflow`). -/
def parseU64Digits : List Nat → Nat → Except ParseIntError Nat
  | [], acc => .ok acc
  | c :: rest, acc =>
    if 48 ≤ c && c ≤ 57 then
      if acc * 10 + (c - 48) ≤ u64Max then
        parseU64Digits rest (acc * 10 + (c - 48))
      else .error ⟨.PosOverflow⟩
    else .error ⟨.InvalidDigit⟩

/-- Mirror of `u64::from_str`: empty input is `Empty`; a leading '+' (byte
43) is allowed but must be followed by at least one character; '-' is not
special for an unsigned type and falls through to the digit loop as an
invalid digit. -/
def parseU64 (l : List Nat) : Except ParseIntError Nat :=
  match l with
  | [] => .error ⟨.Empty⟩
  | b :: rest =>
    if b = 43 then
      match rest with
      | [] => .error ⟨.InvalidDigit⟩
      | _ => parseU64Digits rest 0
    else parseU64Digits (b :: rest) 0

/-- The `u64 as i64` cast of the source (`expires as i64`): values below
2^63 are unchanged, larger ones wrap by subtracting 2^64. -/
def wrap64 (v : Nat) : Int :=
  if v < 9223372036854775808 then (v : Int)
  else (v : Int) - 18446744073709551616

/-! ## The parser, from src/lib.rs -/

/-- Bytes of the literal `HTTP_ONLY_PREFIX` constant of the source, the
marker that denotes an HTTP-only cookie line. -/
def httpOnlyMarker : List Nat := [35, 72, 116, 116, 112, 79, 110, 108, 121, 95]

/-- Field extraction and validation of one line, mirroring the body of the
`parse` loop from the `split('\t')` call on: each `split.next()` in turn,
with its dedicated missing-field error, boolean fields lowercased and
parsed, the expires field parsed as `u64` (0 mapping to `Session`, anything
else to a timestamp through the `as i64` cast), and a trailing
`TooManyElements` check. -/
def cookieOfFields (http_only : Bool) (fs : List (List Nat)) :
    Except ParseError Cookie :=
  match fs with
  | [] => .error .DomainMissing
  | domain :: fs1 =>
    match fs1 with
    | [] => .error .IncludeSubdomainsMissing
    | isd :: fs2 =>
      match parseBool (asciiLower isd) with
      | none => .error (.IncludeSubdomainsInvalid ⟨⟩)
      | some include_subdomains =>
        match fs2 with
        | [] => .error .PathMissing
        | path :: fs3 =>
          match fs3 with
          | [] => .error .SecureMissing
          | sec :: fs4 =>
            match parseBool (asciiLower sec) with
            | none => .error (.SecureInvalid ⟨⟩)
            | some secure =>
              match fs4 with
              | [] => .error .ExpiresMissing
              | exp :: fs5 =>
                match parseU64 exp with
                | .error e => .error (.ExpiresInvalid e)
                | .ok v =>
                  let expires :=
                    if v = 0 then CookieExpires.Session
                    else CookieExpires.DateTime (wrap64 v)
                  match fs5 with
                  | [] => .error .NameMissing
                  | name :: fs6 =>
                    match fs6 with
                    | [] => .error .ValueMissing
                    | value :: fs7 =>
                      match fs7 with
                      | [] =>
                        .ok ⟨http_only, domain, include_subdomains, path,
                             secure, expires, name, value⟩
                      | _ => .error .TooManyElements

/-- Outcome of one iteration of the `parse` loop on one chunk. -/
inductive LineStep
  | skip
  | done (c : Cookie)
  | fail (e : ParseError)
deriving DecidableEq, Repr

/-- Message of the I/O error produced by `read_line` when the bytes of a
line are not valid UTF-8. -/
def invalidUtf8Msg : String := "stream did not contain valid UTF-8"

/-- One iteration of the `parse` loop on the chunk read by `read_line`:
first the UTF-8 check of `read_line` itself (whose failure `?`-propagates as
an `IoError`), then the `match` on the byte count `n` (a 1-byte chunk, an
empty line or a lone final byte, is skipped), then `s = &buf[..n]` which
drops the final byte of the chunk whether or not it is a newline, then the
`#HttpOnly_` marker strip, the comment check, and field parsing. -/
def lineStep (chunk : List Nat) : LineStep :=
  if utf8Valid chunk then
    if chunk.length ≤ 1 then .skip
    else if httpOnlyMarker.isPrefixOf chunk.dropLast then
      match cookieOfFields true (splitTab (chunk.dropLast.drop 10)) with
      | .ok c => .done c
      | .error e => .fail e
    else if chunk.dropLast.head? = some 35 then .skip
    else
      match cookieOfFields false (splitTab chunk.dropLast) with
      | .ok c => .done c
      | .error e => .fail e
  else .fail (.IoError .InvalidData invalidUtf8Msg)

/-- The `parse` loop over the list of chunks, accumulating records in file
order; the first failing line aborts the whole parse. -/
def processChunks : List (List Nat) → List Cookie →
    Except ParseError (List Cookie)
  | [], acc => .ok acc
  | ch :: rest, acc =>
    match lineStep ch with
    | .skip => processChunks rest acc
    | .done c => processChunks rest (acc ++ [c])
    | .fail e => .error e

/-- Mirror of `pub fn parse` in src/lib.rs on an in-memory byte buffer. -/
def parse (bytes : List Nat) : Except ParseError (List Cookie) :=
  processChunks (toChunks bytes) []

/-! ## The adapter, from src/feature_cookie.rs -/

/-- The observable state of the external `cookie::Cookie` object after the
setters used by the adapter: `Cookie::new(name, value)` starts with no
domain, path, flags or expiry, and each setter fills one field.  The expiry
is observed through `expires()` as an absolute instant, modelled by its Unix
timestamp, since `OffsetDateTime::from_unix_timestamp` is applied to the
record's stored timestamp. -/
structure ExternalCookie where
  name : List Nat
  value : List Nat
  domain : Option (List Nat)
  path : Option (List Nat)
  secure : Option Bool
  http_only : Option Bool
  expires : Option Int
deriving DecidableEq, Repr

/-- Mirror of `impl From<&CrateCookie> for Cookie` in src/feature_cookie.rs:
name and value seed the constructor, domain, path, secure and http_only are
copied through their setters, a `Session` expiry sets no expiry and a
`DateTime` expiry sets the same Unix timestamp.  `include_subdomains` is
never read. -/
def toExternalCookie (cc : Cookie) : ExternalCookie :=
  { name := cc.name
    value := cc.value
    domain := some cc.domain
    path := some cc.path
    secure := some cc.secure
    http_only := some cc.http_only
    expires :=
      match cc.expires with
      | .Session => none
      | .DateTime ts => some ts }

/-! ## Derived observations on the parser, used to state the claims -/

/-- Placeholder record, only ever produced by `recordOfLine` on a line the
parser does not turn into a record. -/
def defaultCookie : Cookie :=
  ⟨false, [], false, [], false, .Session, [], []⟩

/-- The record the parser produces from one chunk, if any. -/
def chunkRecord (ch : List Nat) : Option Cookie :=
  match lineStep ch with
  | .done c => some c
  | _ => none

/-- Whether one chunk passes through the parser without aborting it. -/
def stepOk (ch : List Nat) : Bool :=
  match lineStep ch with
  | .fail _ => false
  | _ => true

/-- The record the parser produces from the newline-terminated line `l`. -/
def recordOfLine (l : List Nat) : Cookie :=
  match lineStep (l ++ [10]) with
  | .done c => c
  | _ => defaultCookie

/-- The newline-terminated lines of an input, without their terminators: a
final unterminated fragment is excluded. -/
def terminatedLines (bytes : List Nat) : List (List Nat) :=
  (toChunks bytes).filterMap fun ch =>
    if ch.getLast? = some 10 then some ch.dropLast else none

/-- Spec-side comment test: the line starts with '#' (byte 35) but not with
the `#HttpOnly_` marker. -/
def isCommentLine (l : List Nat) : Bool :=
  decide (l.head? = some 35) && !(httpOnlyMarker.isPrefixOf l)

/-- Spec-side relevance test: the line is neither empty nor a comment. -/
def relevantLine (l : List Nat) : Bool :=
  !l.isEmpty && !(isCommentLine l)

/-- Largest Unix timestamp (in seconds) that a chrono `NaiveDateTime` can
represent, namely 262143-12-31T23:59:59Z; beyond it the source's
`NaiveDateTime::from_timestamp` call panics, which is outside this
embedding, so well-formedness of the expires field is bounded by it. -/
def chronoMaxTimestamp : Nat := 8210298412799

/-- Spec-side validity of a boolean field: a case-insensitive boolean
literal. -/
def boolFieldOk (f : List Nat) : Bool :=
  (parseBool (asciiLower f)).isSome

/-- Spec-side validity of the expires field: a non-negative integer, within
the range chrono can represent. -/
def expiresFieldOk (f : List Nat) : Bool :=
  match parseU64 f with
  | .ok v => decide (v ≤ chronoMaxTimestamp)
  | .error _ => false

/-- The tab-separated fields of a line after the optional marker strip. -/
def lineFields (l : List Nat) : List (List Nat) :=
  if httpOnlyMarker.isPrefixOf l then splitTab (l.drop 10) else splitTab l

/-- Validity of an optional field: an absent field imposes nothing. -/
def optFieldOk (test : List Nat → Bool) : Option (List Nat) → Bool
  | some f => test f
  | none => true

/-- Spec-side well-formedness of a data line: exactly 7 tab-separated
fields after the optional marker strip, valid case-insensitive boolean
literals in the second and fourth, and a valid (representable) non-negative
integer in the fifth. -/
def wellFormedLine (l : List Nat) : Bool :=
  decide ((lineFields l).length = 7) &&
  optFieldOk boolFieldOk (lineFields l)[1]? &&
  optFieldOk boolFieldOk (lineFields l)[3]? &&
  optFieldOk expiresFieldOk (lineFields l)[4]?

/-- The positional missing-field error for field number `k` (1-based):
field 2 is include_subdomains, 3 path, 4 secure, 5 expires, 6 name,
7 value. -/
def missingFor : Nat → ParseError
  | 2 => .IncludeSubdomainsMissing
  | 3 => .PathMissing
  | 4 => .SecureMissing
  | 5 => .ExpiresMissing
  | 6 => .NameMissing
  | 7 => .ValueMissing
  | _ => .DomainMissing

/-- Validity of whichever of the typed fields (include_subdomains, secure,
expires, at positions 2, 4 and 5) are present in a truncated field list;
absent fields impose nothing. -/
def presentFieldsOk (fs : List (List Nat)) : Bool :=
  optFieldOk boolFieldOk fs[1]? &&
  optFieldOk boolFieldOk fs[3]? &&
  optFieldOk expiresFieldOk fs[4]?

/-- Whether a parse outcome is the `DomainMissing` error. -/
def isDomainMissingResult (r : Except ParseError (List Cookie)) : Bool :=
  match r with
  | .error .DomainMissing => true
  | _ => false

/-- Whether a parse outcome is an I/O error. -/
def isIoErrorResult (r : Except ParseError (List Cookie)) : Bool :=
  match r with
  | .error (.IoError _ _) => true
  | _ => false

/-- When a parse outcome is an I/O error, whether it carries the
`InvalidData` kind and the UTF-8 failure message; vacuously true
otherwise. -/
def ioPayloadOk (r : Except ParseError (List Cookie)) : Bool :=
  match r with
  | .error (.IoError k m) =>
    decide (k = IoErrorKind.InvalidData) && decide (m = invalidUtf8Msg)
  | _ => true

/-- Errors a single data line can produce, as opposed to the two the field
scan can never produce: an I/O error or `DomainMissing`. -/
def benignParseError (e : ParseError) : Bool :=
  match e with
  | .IoError _ _ => false
  | .DomainMissing => false
  | _ => true

/-- Spec-side scan for Claim C10: walking the chunks in order, does the
scan meet an invalid-UTF-8 chunk before any chunk on which the parser
fails? -/
def firstBadIsUtf8 : List (List Nat) → Bool
  | [] => false
  | ch :: rest =>
    if utf8Valid ch then
      match lineStep ch with
      | .fail _ => false
      | _ => firstBadIsUtf8 rest
    else true

/-- A record with its `http_only` flag forced on. -/
def withHttpOnly (c : Cookie) : Cookie :=
  { c with http_only := true }

/-- Spec-side expiry mapping of the Adapter: `Session` maps to no expiry,
`At(ts)` to an absolute expiry at the same Unix timestamp. -/
def expiresToExternal : CookieExpires → Option Int
  | .Session => none
  | .DateTime ts => some ts

/-- Decidable equality of parse outcomes, so that concrete runs of the
parser can be checked by `decide`. -/
instance {ε α : Type} [DecidableEq ε] [DecidableEq α] :
    DecidableEq (Except ε α) := fun a b =>
  match a, b with
  | .error x, .error y =>
    if h : x = y then .isTrue (by rw [h])
    else .isFalse (fun hc => h (Except.error.inj hc))
  | .ok x, .ok y =>
    if h : x = y then .isTrue (by rw [h])
    else .isFalse (fun hc => h (Except.ok.inj hc))
  | .error _, .ok _ => .isFalse (fun hc => Except.noConfusion hc)
  | .ok _, .error _ => .isFalse (fun hc => Except.noConfusion hc)

/-! ## Structural lemmas about chunking and the parse loop -/

theorem chunkStep_ne_nil (b : Nat) (acc : List (List Nat)) :
    chunkStep b acc ≠ [] := by
  unfold chunkStep
  split
  · simp
  · split <;> simp

theorem foldr_chunkStep_ne_nil (x : List Nat) (A : List (List Nat))
    (hA : A ≠ []) : List.foldr chunkStep A x ≠ [] := by
  cases x with
  | nil => simpa using hA
  | cons b x => exact chunkStep_ne_nil b _

theorem foldr_chunkStep_split (x : List Nat) (c : List Nat)
    (A : List (List Nat)) :
    List.foldr chunkStep (c :: A) x = List.foldr chunkStep [c] x ++ A := by
  induction x with
  | nil => simp
  | cons b x ih =>
    simp only [List.foldr, ih]
    rcases hY : List.foldr chunkStep [c] x with _ | ⟨h, t⟩
    · exact absurd hY (foldr_chunkStep_ne_nil x [c] (by simp))
    · unfold chunkStep
      split
      · simp
      · simp

theorem toChunks_append_cons (x y : List Nat) :
    toChunks (x ++ 10 :: y) = toChunks (x ++ [10]) ++ toChunks y := by
  unfold toChunks
  rw [List.foldr_append, List.foldr_append]
  have h1 : List.foldr chunkStep [] (10 :: y) =
      [10] :: List.foldr chunkStep [] y := by
    simp [List.foldr, chunkStep]
  have h2 : List.foldr chunkStep [] [10] = [[10]] := rfl
  rw [h1, h2]
  exact foldr_chunkStep_split x [10] _

theorem toChunks_concat (l : List Nat) (h : 10 ∉ l) :
    toChunks (l ++ [10]) = [l ++ [10]] := by
  induction l with
  | nil => rfl
  | cons b l ih =>
    have hb : b ≠ 10 := fun hb => h (by simp [hb])
    have hl : 10 ∉ l := fun hl => h (List.mem_cons_of_mem b hl)
    have : toChunks ((b :: l) ++ [10]) = chunkStep b (toChunks (l ++ [10])) := rfl
    rw [this, ih hl]
    simp [chunkStep, hb]

theorem toChunks_nosep (t : List Nat) (h : 10 ∉ t) (hne : t ≠ []) :
    toChunks t = [t] := by
  induction t with
  | nil => exact absurd rfl hne
  | cons b t ih =>
    have hb : b ≠ 10 := fun hb => h (by simp [hb])
    have ht : 10 ∉ t := fun hl => h (List.mem_cons_of_mem b hl)
    have hstep : toChunks (b :: t) = chunkStep b (toChunks t) := rfl
    cases t with
    | nil => simp [toChunks, chunkStep, hb]
    | cons c t2 =>
      rw [hstep, ih ht (by simp)]
      simp [chunkStep, hb]

theorem eq_concat_of_getLast10 (b : List Nat) (h : b.getLast? = some 10) :
    ∃ b2, b = b2 ++ [10] := by
  induction b with
  | nil => simp at h
  | cons a b ih =>
    cases b with
    | nil =>
      simp only [List.getLast?_singleton, Option.some.injEq] at h
      exact ⟨[], by simp [h]⟩
    | cons c d =>
      rw [List.getLast?_cons_cons] at h
      obtain ⟨b2, hb2⟩ := ih h
      exact ⟨a :: b2, by simp [hb2]⟩

theorem toChunks_term_append (b y : List Nat)
    (hb : b = [] ∨ b.getLast? = some 10) :
    toChunks (b ++ y) = toChunks b ++ toChunks y := by
  rcases hb with hb | hb
  · subst hb; simp [toChunks]
  · obtain ⟨b2, rfl⟩ := eq_concat_of_getLast10 b hb
    have : b2 ++ [10] ++ y = b2 ++ 10 :: y := by simp
    rw [this, toChunks_append_cons]

theorem processChunks_append (A B : List (List Nat)) (acc : List Cookie) :
    processChunks (A ++ B) acc =
      match processChunks A acc with
      | .ok acc2 => processChunks B acc2
      | .error e => .error e := by
  induction A generalizing acc with
  | nil => simp [processChunks]
  | cons ch A ih =>
    simp only [List.cons_append, processChunks]
    cases h : lineStep ch <;> simp [h, ih]

theorem processChunks_all_ok (A : List (List Nat)) (acc : List Cookie)
    (h : ∀ ch ∈ A, stepOk ch = true) :
    processChunks A acc = .ok (acc ++ A.filterMap chunkRecord) := by
  induction A generalizing acc with
  | nil => simp [processChunks]
  | cons ch A ih =>
    have hch := h ch (List.mem_cons_self ch A)
    have hA : ∀ ch2 ∈ A, stepOk ch2 = true :=
      fun ch2 hm => h ch2 (List.mem_cons_of_mem ch hm)
    cases hs : lineStep ch with
    | skip =>
      simp only [processChunks, hs]
      rw [ih acc hA]
      simp [chunkRecord, hs]
    | done c =>
      simp only [processChunks, hs]
      rw [ih (acc ++ [c]) hA]
      simp [chunkRecord, hs]
    | fail e =>
      simp [stepOk, hs] at hch

theorem tabStep_ne_nil (b : Nat) (acc : List (List Nat)) :
    tabStep b acc ≠ [] := by
  unfold tabStep
  split
  · simp
  · split <;> simp

theorem splitTab_ne_nil (l : List Nat) : splitTab l ≠ [] := by
  cases l with
  | nil => simp [splitTab]
  | cons b l => exact tabStep_ne_nil b _

theorem utf8Valid_of_ascii (l : List Nat) (h : ∀ x ∈ l, x ≤ 127) :
    utf8Valid l = true := by
  induction l with
  | nil => rfl
  | cons b l ih =>
    have hb : b ≤ 127 := h b (List.mem_cons_self b l)
    have hl : ∀ x ∈ l, x ≤ 127 := fun x hx => h x (List.mem_cons_of_mem b hx)
    have heq : utf8Valid (b :: l) = utf8Valid l := by
      simp only [utf8Valid, utf8Go]
      rw [if_pos hb]
    rw [heq]
    exact ih hl

/-! ## Line-level lemmas -/

theorem processChunks_single (ch : List Nat) (acc : List Cookie) :
    processChunks [ch] acc =
      match lineStep ch with
      | .skip => .ok acc
      | .done c => .ok (acc ++ [c])
      | .fail e => .error e := by
  cases h : lineStep ch <;> simp [processChunks, h]

theorem lineStep_concat (l : List Nat) (hu : utf8Valid (l ++ [10]) = true)
    (hr : relevantLine l = true) :
    lineStep (l ++ [10]) =
      match cookieOfFields (httpOnlyMarker.isPrefixOf l) (lineFields l) with
      | .ok c => .done c
      | .error e => .fail e := by
  have hne : l ≠ [] := by
    intro h0
    subst h0
    simp [relevantLine] at hr
  have hlen : ¬ (l ++ [10]).length ≤ 1 := by
    have hpos : 0 < l.length := List.length_pos.mpr hne
    simp only [List.length_append, List.length_cons, List.length_nil]
    omega
  unfold lineStep
  rw [if_pos hu, if_neg hlen]
  simp only [List.dropLast_concat]
  cases hpre : httpOnlyMarker.isPrefixOf l with
  | true =>
    simp [lineFields, hpre]
  | false =>
    have hcom : isCommentLine l = false := by
      simp [relevantLine] at hr
      exact hr.2
    have h35 : ¬ l.head? = some 35 := by
      simpa [isCommentLine, hpre] using hcom
    simp [lineFields, hpre, h35]

theorem lineStep_skip_of_irrelevant (l : List Nat)
    (hu : utf8Valid (l ++ [10]) = true) (hr : relevantLine l = false) :
    lineStep (l ++ [10]) = .skip := by
  rcases l with _ | ⟨c, l2⟩
  · decide
  · have hlen : ¬ ((c :: l2) ++ [10]).length ≤ 1 := by
      simp only [List.length_append, List.length_cons, List.length_nil]
      omega
    have hcom : isCommentLine (c :: l2) = true := by
      simp [relevantLine] at hr
      exact hr
    simp [isCommentLine] at hcom
    obtain ⟨hc35, hpre⟩ := hcom
    unfold lineStep
    rw [if_pos hu, if_neg hlen]
    simp only [List.dropLast_concat]
    rw [if_neg (by simp [hpre]), if_pos (by simp [hc35])]

theorem cookieOfFields_ok (ho : Bool) (d isd p sec exp nm vl : List Nat)
    (b1 b2 : Bool) (tv : Nat)
    (h1 : parseBool (asciiLower isd) = some b1)
    (h2 : parseBool (asciiLower sec) = some b2)
    (h3 : parseU64 exp = .ok tv) :
    cookieOfFields ho [d, isd, p, sec, exp, nm, vl] =
      .ok ⟨ho, d, b1, p, b2,
           if tv = 0 then .Session else .DateTime (wrap64 tv), nm, vl⟩ := by
  simp [cookieOfFields, h1, h2, h3]

theorem cookieOfFields_http_only (fs : List (List Nat)) :
    cookieOfFields true fs = (cookieOfFields false fs).map withHttpOnly := by
  rcases fs with _ | ⟨f1, fs⟩
  · simp [cookieOfFields, Except.map]
  rcases fs with _ | ⟨f2, fs⟩
  · simp [cookieOfFields, Except.map]
  rcases hb1 : parseBool (asciiLower f2) with _ | b1
  · simp [cookieOfFields, hb1, Except.map]
  rcases fs with _ | ⟨f3, fs⟩
  · simp [cookieOfFields, hb1, Except.map]
  rcases fs with _ | ⟨f4, fs⟩
  · simp [cookieOfFields, hb1, Except.map]
  rcases hb2 : parseBool (asciiLower f4) with _ | b2
  · simp [cookieOfFields, hb1, hb2, Except.map]
  rcases fs with _ | ⟨f5, fs⟩
  · simp [cookieOfFields, hb1, hb2, Except.map]
  rcases hv : parseU64 f5 with ie | tv
  · simp [cookieOfFields, hb1, hb2, hv, Except.map]
  rcases fs with _ | ⟨f6, fs⟩
  · simp [cookieOfFields, hb1, hb2, hv, Except.map]
  rcases fs with _ | ⟨f7, fs⟩
  · simp [cookieOfFields, hb1, hb2, hv, Except.map]
  rcases fs with _ | ⟨f8, fs⟩
  · simp [cookieOfFields, hb1, hb2, hv, Except.map, withHttpOnly]
  · simp [cookieOfFields, hb1, hb2, hv, Except.map]

theorem cookieOfFields_error_benign (ho : Bool) (fs : List (List Nat))
    (e : ParseError) (hne : fs ≠ []) (h : cookieOfFields ho fs = .error e) :
    benignParseError e = true := by
  rcases fs with _ | ⟨f1, fs⟩
  · exact absurd rfl hne
  rcases fs with _ | ⟨f2, fs⟩
  · simp [cookieOfFields] at h
    subst h
    rfl
  rcases hb1 : parseBool (asciiLower f2) with _ | b1
  · simp [cookieOfFields, hb1] at h
    subst h
    rfl
  rcases fs with _ | ⟨f3, fs⟩
  · simp [cookieOfFields, hb1] at h
    subst h
    rfl
  rcases fs with _ | ⟨f4, fs⟩
  · simp [cookieOfFields, hb1] at h
    subst h
    rfl
  rcases hb2 : parseBool (asciiLower f4) with _ | b2
  · simp [cookieOfFields, hb1, hb2] at h
    subst h
    rfl
  rcases fs with _ | ⟨f5, fs⟩
  · simp [cookieOfFields, hb1, hb2] at h
    subst h
    rfl
  rcases hv : parseU64 f5 with ie | tv
  · simp [cookieOfFields, hb1, hb2, hv] at h
    subst h
    rfl
  rcases fs with _ | ⟨f6, fs⟩
  · simp [cookieOfFields, hb1, hb2, hv] at h
    subst h
    rfl
  rcases fs with _ | ⟨f7, fs⟩
  · simp [cookieOfFields, hb1, hb2, hv] at h
    subst h
    rfl
  rcases fs with _ | ⟨f8, fs⟩
  · simp [cookieOfFields, hb1, hb2, hv] at h
  · simp [cookieOfFields, hb1, hb2, hv] at h
    subst h
    rfl

theorem boolFieldOk_exists (f : List Nat) (h : boolFieldOk f = true) :
    ∃ b, parseBool (asciiLower f) = some b := by
  unfold boolFieldOk at h
  exact Option.isSome_iff_exists.mp h

theorem expiresFieldOk_exists (f : List Nat) (h : expiresFieldOk f = true) :
    ∃ tv, parseU64 f = .ok tv ∧ tv ≤ chronoMaxTimestamp := by
  unfold expiresFieldOk at h
  split at h
  · rename_i tv heq
    exact ⟨tv, heq, by simpa using h⟩
  · simp at h

theorem cookieOfFields_missing (ho : Bool) (fs : List (List Nat))
    (h1 : 1 ≤ fs.length) (h6 : fs.length ≤ 6)
    (hp : presentFieldsOk fs = true) :
    cookieOfFields ho fs = .error (missingFor (fs.length + 1)) := by
  rcases fs with _ | ⟨f1, fs⟩
  · simp at h1
  rcases fs with _ | ⟨f2, fs⟩
  · simp [cookieOfFields, missingFor]
  rcases fs with _ | ⟨f3, fs⟩
  · simp [presentFieldsOk, optFieldOk] at hp
    obtain ⟨b1, hb1⟩ := boolFieldOk_exists f2 hp
    simp [cookieOfFields, hb1, missingFor]
  rcases fs with _ | ⟨f4, fs⟩
  · simp [presentFieldsOk, optFieldOk] at hp
    obtain ⟨b1, hb1⟩ := boolFieldOk_exists f2 hp
    simp [cookieOfFields, hb1, missingFor]
  rcases fs with _ | ⟨f5, fs⟩
  · simp [presentFieldsOk, optFieldOk] at hp
    obtain ⟨b1, hb1⟩ := boolFieldOk_exists f2 hp.1
    obtain ⟨b2, hb2⟩ := boolFieldOk_exists f4 hp.2
    simp [cookieOfFields, hb1, hb2, missingFor]
  rcases fs with _ | ⟨f6, fs⟩
  · simp [presentFieldsOk, optFieldOk] at hp
    obtain ⟨b1, hb1⟩ := boolFieldOk_exists f2 hp.1.1
    obtain ⟨b2, hb2⟩ := boolFieldOk_exists f4 hp.1.2
    obtain ⟨tv, hv, _⟩ := expiresFieldOk_exists f5 hp.2
    simp [cookieOfFields, hb1, hb2, hv, missingFor]
  rcases fs with _ | ⟨f7, fs⟩
  · simp [presentFieldsOk, optFieldOk] at hp
    obtain ⟨b1, hb1⟩ := boolFieldOk_exists f2 hp.1.1
    obtain ⟨b2, hb2⟩ := boolFieldOk_exists f4 hp.1.2
    obtain ⟨tv, hv, _⟩ := expiresFieldOk_exists f5 hp.2
    simp [cookieOfFields, hb1, hb2, hv, missingFor]
  · simp only [List.length_cons] at h6
    omega

theorem cookieOfFields_toomany (ho : Bool) (f1 f2 f3 f4 f5 f6 f7 f8 : List Nat)
    (rest : List (List Nat))
    (hb1 : boolFieldOk f2 = true) (hb2 : boolFieldOk f4 = true)
    (he : expiresFieldOk f5 = true) :
    cookieOfFields ho (f1 :: f2 :: f3 :: f4 :: f5 :: f6 :: f7 :: f8 :: rest) =
      .error .TooManyElements := by
  obtain ⟨b1, hpb1⟩ := boolFieldOk_exists f2 hb1
  obtain ⟨b2, hpb2⟩ := boolFieldOk_exists f4 hb2
  obtain ⟨tv, hv, _⟩ := expiresFieldOk_exists f5 he
  simp [cookieOfFields, hpb1, hpb2, hv]

theorem lineStep_fail_benign (ch : List Nat) (e : ParseError)
    (h : lineStep ch = .fail e) (hu : utf8Valid ch = true) :
    benignParseError e = true := by
  unfold lineStep at h
  rw [if_pos hu] at h
  by_cases hlen : ch.length ≤ 1
  · rw [if_pos hlen] at h
    exact absurd h (by simp)
  · rw [if_neg hlen] at h
    by_cases hpre : httpOnlyMarker.isPrefixOf ch.dropLast = true
    · rw [if_pos hpre] at h
      rcases hc : cookieOfFields true (splitTab (ch.dropLast.drop 10)) with e2 | c
      · rw [hc] at h
        simp only [LineStep.fail.injEq] at h
        subst h
        exact cookieOfFields_error_benign _ _ _ (splitTab_ne_nil _) hc
      · rw [hc] at h
        exact absurd h (by simp)
    · rw [if_neg hpre] at h
      by_cases h35 : ch.dropLast.head? = some 35
      · rw [if_pos h35] at h
        exact absurd h (by simp)
      · rw [if_neg h35] at h
        rcases hc : cookieOfFields false (splitTab ch.dropLast) with e2 | c
        · rw [hc] at h
          simp only [LineStep.fail.injEq] at h
          subst h
          exact cookieOfFields_error_benign _ _ _ (splitTab_ne_nil _) hc
        · rw [hc] at h
          exact absurd h (by simp)

theorem lineStep_of_invalid (ch : List Nat) (hu : utf8Valid ch = false) :
    lineStep ch = .fail (.IoError .InvalidData invalidUtf8Msg) := by
  unfold lineStep
  rw [if_neg (by simp [hu])]

theorem lineStep_wf_full (l : List Nat) (hu : utf8Valid (l ++ [10]) = true)
    (hr : relevantLine l = true) (hw : wellFormedLine l = true) :
    ∃ d isd p sec exp nm vl b1 b2 tv,
      lineFields l = [d, isd, p, sec, exp, nm, vl] ∧
      parseBool (asciiLower isd) = some b1 ∧
      parseBool (asciiLower sec) = some b2 ∧
      parseU64 exp = .ok tv ∧
      tv ≤ chronoMaxTimestamp ∧
      recordOfLine l =
        ⟨httpOnlyMarker.isPrefixOf l, d, b1, p, b2,
         if tv = 0 then .Session else .DateTime (wrap64 tv), nm, vl⟩ ∧
      lineStep (l ++ [10]) = .done (recordOfLine l) := by
  simp only [wellFormedLine, Bool.and_eq_true, decide_eq_true_eq] at hw
  obtain ⟨⟨⟨hlen7, hb2ok⟩, hb4ok⟩, hexok⟩ := hw
  rcases hfs : lineFields l with _ | ⟨d, fs⟩
  · rw [hfs] at hlen7; simp at hlen7
  rcases fs with _ | ⟨isd, fs⟩
  · rw [hfs] at hlen7; simp at hlen7
  rcases fs with _ | ⟨p, fs⟩
  · rw [hfs] at hlen7; simp at hlen7
  rcases fs with _ | ⟨sec, fs⟩
  · rw [hfs] at hlen7; simp at hlen7
  rcases fs with _ | ⟨exp, fs⟩
  · rw [hfs] at hlen7; simp at hlen7
  rcases fs with _ | ⟨nm, fs⟩
  · rw [hfs] at hlen7; simp at hlen7
  rcases fs with _ | ⟨vl, fs⟩
  · rw [hfs] at hlen7; simp at hlen7
  rcases fs with _ | ⟨x, fs⟩
  · rw [hfs] at hb2ok hb4ok hexok
    simp only [optFieldOk] at hb2ok hb4ok hexok
    obtain ⟨b1, hb1⟩ := boolFieldOk_exists isd (by simpa using hb2ok)
    obtain ⟨b2, hb2⟩ := boolFieldOk_exists sec (by simpa using hb4ok)
    obtain ⟨tv, hv, htvle⟩ := expiresFieldOk_exists exp (by simpa using hexok)
    have hstep : lineStep (l ++ [10]) =
        .done ⟨httpOnlyMarker.isPrefixOf l, d, b1, p, b2,
               if tv = 0 then .Session else .DateTime (wrap64 tv), nm, vl⟩ := by
      rw [lineStep_concat l hu hr, hfs,
          cookieOfFields_ok _ d isd p sec exp nm vl b1 b2 tv hb1 hb2 hv]
    have hrec : recordOfLine l =
        ⟨httpOnlyMarker.isPrefixOf l, d, b1, p, b2,
         if tv = 0 then .Session else .DateTime (wrap64 tv), nm, vl⟩ := by
      simp [recordOfLine, hstep]
    exact ⟨d, isd, p, sec, exp, nm, vl, b1, b2, tv, rfl, hb1, hb2, hv, htvle,
           hrec, by rw [hstep, hrec]⟩
  · rw [hfs] at hlen7; simp at hlen7

theorem lineStep_done_of_wf (l : List Nat) (hu : utf8Valid (l ++ [10]) = true)
    (hr : relevantLine l = true) (hw : wellFormedLine l = true) :
    lineStep (l ++ [10]) = .done (recordOfLine l) := by
  obtain ⟨_, _, _, _, _, _, _, _, _, _, _, _, _, _, _, _, hstep⟩ :=
    lineStep_wf_full l hu hr hw
  exact hstep

theorem processChunks_wf (C : List (List Nat))
    (h1 : ∀ ch ∈ C, utf8Valid ch = true)
    (h2 : ∀ ch ∈ C, ch.getLast? = some 10 ∨ ch.length = 1)
    (h3 : ∀ ch ∈ C, ch.getLast? = some 10 →
          relevantLine ch.dropLast = true → wellFormedLine ch.dropLast = true)
    (acc : List Cookie) :
    processChunks C acc = .ok (acc ++
      (((C.filterMap fun ch =>
          if ch.getLast? = some 10 then some ch.dropLast else none).filter
        fun l => relevantLine l).map recordOfLine)) := by
  induction C generalizing acc with
  | nil => simp [processChunks]
  | cons ch C ih =>
    have hu := h1 ch (List.mem_cons_self ch C)
    have hterm := h2 ch (List.mem_cons_self ch C)
    have h1t : ∀ ch2 ∈ C, utf8Valid ch2 = true :=
      fun ch2 hm => h1 ch2 (List.mem_cons_of_mem _ hm)
    have h2t : ∀ ch2 ∈ C, ch2.getLast? = some 10 ∨ ch2.length = 1 :=
      fun ch2 hm => h2 ch2 (List.mem_cons_of_mem _ hm)
    have h3t : ∀ ch2 ∈ C, ch2.getLast? = some 10 →
        relevantLine ch2.dropLast = true → wellFormedLine ch2.dropLast = true :=
      fun ch2 hm => h3 ch2 (List.mem_cons_of_mem _ hm)
    rcases hterm with hterm | hlen1
    · obtain ⟨l, rfl⟩ := eq_concat_of_getLast10 ch hterm
      have hdrop : (l ++ [10]).dropLast = l := by simp
      by_cases hrel : relevantLine l = true
      · have hwf := h3 (l ++ [10]) (List.mem_cons_self _ _) (by simp)
          (by rw [hdrop]; exact hrel)
        rw [hdrop] at hwf
        have hstep := lineStep_done_of_wf l hu hrel hwf
        simp only [processChunks, hstep]
        rw [ih h1t h2t h3t (acc ++ [recordOfLine l])]
        simp [hrel]
      · have hrel2 : relevantLine l = false := by simpa using hrel
        have hstep := lineStep_skip_of_irrelevant l hu hrel2
        simp only [processChunks, hstep]
        rw [ih h1t h2t h3t acc]
        simp [hrel2]
    · obtain ⟨c, rfl⟩ : ∃ c, ch = [c] := by
        rcases ch with _ | ⟨c, rest⟩
        · simp at hlen1
        rcases rest with _ | ⟨c2, rest⟩
        · exact ⟨c, rfl⟩
        · simp at hlen1
      have hstep : lineStep [c] = .skip := by
        unfold lineStep
        rw [if_pos hu, if_pos (by simp)]
      simp only [processChunks, hstep]
      rw [ih h1t h2t h3t acc]
      by_cases hc : c = 10
      · subst hc
        simp [relevantLine]
      · simp [hc]

theorem processChunks_no_domainMissing (C : List (List Nat))
    (acc : List Cookie) :
    isDomainMissingResult (processChunks C acc) = false := by
  induction C generalizing acc with
  | nil => simp [processChunks, isDomainMissingResult]
  | cons ch C ih =>
    cases hs : lineStep ch with
    | skip => simp only [processChunks, hs]; exact ih acc
    | done c => simp only [processChunks, hs]; exact ih (acc ++ [c])
    | fail e =>
      simp only [processChunks, hs]
      by_cases hu : utf8Valid ch = true
      · have hb := lineStep_fail_benign ch e hs hu
        cases e <;> simp [isDomainMissingResult] <;> simp [benignParseError] at hb
      · simp only [Bool.not_eq_true] at hu
        rw [lineStep_of_invalid ch hu] at hs
        simp only [LineStep.fail.injEq] at hs
        rw [← hs]
        rfl

theorem processChunks_io_characterization (C : List (List Nat))
    (acc : List Cookie) :
    isIoErrorResult (processChunks C acc) = firstBadIsUtf8 C ∧
    ioPayloadOk (processChunks C acc) = true := by
  induction C generalizing acc with
  | nil => simp [processChunks, firstBadIsUtf8, isIoErrorResult, ioPayloadOk]
  | cons ch C ih =>
    by_cases hu : utf8Valid ch = true
    · cases hs : lineStep ch with
      | skip =>
        simp only [processChunks, hs]
        rw [show firstBadIsUtf8 (ch :: C) = firstBadIsUtf8 C by
          simp [firstBadIsUtf8, hu, hs]]
        exact ih acc
      | done c =>
        simp only [processChunks, hs]
        rw [show firstBadIsUtf8 (ch :: C) = firstBadIsUtf8 C by
          simp [firstBadIsUtf8, hu, hs]]
        exact ih (acc ++ [c])
      | fail e =>
        have hb := lineStep_fail_benign ch e hs hu
        simp only [processChunks, hs]
        constructor
        · have h1 : isIoErrorResult (Except.error e) = false := by
            cases e <;> simp [isIoErrorResult] <;> simp [benignParseError] at hb
          rw [h1]
          rw [show firstBadIsUtf8 (ch :: C) = false by
            simp [firstBadIsUtf8, hu, hs]]
        · cases e <;> simp [ioPayloadOk] <;> simp [benignParseError] at hb
    · simp only [Bool.not_eq_true] at hu
      have hs := lineStep_of_invalid ch hu
      simp only [processChunks, hs]
      refine ⟨?_, ?_⟩
      · rw [show firstBadIsUtf8 (ch :: C) = true by simp [firstBadIsUtf8, hu]]
        rfl
      · simp [ioPayloadOk]

theorem marker_prefix_append (r : List Nat) :
    httpOnlyMarker.isPrefixOf (httpOnlyMarker ++ r) = true := by
  simp [httpOnlyMarker, List.isPrefixOf]

theorem marker_not_prefix (l : List Nat) (h : l.head? ≠ some 35) :
    httpOnlyMarker.isPrefixOf l = false := by
  cases l with
  | nil => rfl
  | cons c l2 =>
    have hc : ¬(35 = c) := by
      intro h0
      exact h (by simp [← h0])
    simp [httpOnlyMarker, List.isPrefixOf, hc]

theorem marker_drop (r : List Nat) : (httpOnlyMarker ++ r).drop 10 = r := by
  rw [show (10 : Nat) = httpOnlyMarker.length from rfl]
  exact List.drop_left _ _

theorem parse_line_error (b l rest : List Nat) (e : ParseError)
    (hb : b = [] ∨ b.getLast? = some 10)
    (hok : ∀ ch ∈ toChunks b, stepOk ch = true)
    (hnl : 10 ∉ l)
    (hstep : lineStep (l ++ [10]) = .fail e) :
    parse (b ++ (l ++ [10]) ++ rest) = .error e := by
  have hchunks : toChunks (b ++ (l ++ [10]) ++ rest) =
      toChunks b ++ ([l ++ [10]] ++ toChunks rest) := by
    rw [List.append_assoc, toChunks_term_append b _ hb]
    congr 1
    have hassoc : (l ++ [10]) ++ rest = l ++ 10 :: rest := by simp
    rw [hassoc, toChunks_append_cons, toChunks_concat l hnl]
  unfold parse
  rw [hchunks, processChunks_append, processChunks_all_ok (toChunks b) [] hok]
  simp only [List.nil_append]
  rw [processChunks_append]
  rw [processChunks_single, hstep]

/-! ## The claims -/

/-- Claim C8: converting a record through the Adapter yields an external
cookie whose domain, path, secure, http_only, name and value read back
equal to the record's fields exactly; a Session expiry maps to no expiry,
an At(ts) expiry maps to the external absolute expiry at the same Unix
timestamp, and include_subdomains is not propagated (two records differing
only in include_subdomains convert identically). -/
theorem claim_C8_adapter_roundtrip (cc : Cookie) (b : Bool) :
    (toExternalCookie cc).domain = some cc.domain ∧
    (toExternalCookie cc).path = some cc.path ∧
    (toExternalCookie cc).secure = some cc.secure ∧
    (toExternalCookie cc).http_only = some cc.http_only ∧
    (toExternalCookie cc).name = cc.name ∧
    (toExternalCookie cc).value = cc.value ∧
    (toExternalCookie cc).expires = expiresToExternal cc.expires ∧
    toExternalCookie { cc with include_subdomains := b } = toExternalCookie cc := by
  refine ⟨rfl, rfl, rfl, rfl, rfl, rfl, ?_, rfl⟩
  cases h : cc.expires <;> simp [toExternalCookie, expiresToExternal, h]

/-- Claim C9: `parse` never returns `ParseError::DomainMissing` for any
input, because splitting a line on tab always yields at least one (possibly
empty) first element; a line whose first field is empty is accepted with an
empty domain, as the concrete second conjunct shows. -/
theorem claim_C9_domain_missing_unreachable (bytes : List Nat) :
    isDomainMissingResult (parse bytes) = false ∧
    parse (bytesOfAscii "\ttrue\t/\ttrue\t0\tn\tv\n") =
      .ok [⟨false, [], true, [47], true, .Session, [110], [118]⟩] :=
  ⟨processChunks_no_domainMissing (toChunks bytes) [], by rfl⟩

/-- Claim C10: on an in-memory buffer, `parse` returns `ParseError::IoError`
exactly when the line scan meets an invalid-UTF-8 chunk before any chunk on
which line parsing fails, and any such I/O error carries the `InvalidData`
kind together with the UTF-8 failure message; no other I/O failure is
possible, and the error is the result of the whole parse. -/
theorem claim_C10_io_error_characterization (bytes : List Nat) :
    isIoErrorResult (parse bytes) = firstBadIsUtf8 (toChunks bytes) ∧
    ioPayloadOk (parse bytes) = true :=
  processChunks_io_characterization (toChunks bytes) []

/-- Claim C1 (amended): a final input line lacking its terminator is not
skipped; the loop always strips one trailing byte as if it were the
newline, so the unterminated fragment is processed with its last byte
dropped (a one-byte fragment is skipped by the `1 => continue` arm).
Consequently parse of an input ending in an unterminated ASCII fragment `t`
of length at least 2 equals parse of the same input with the last byte of
`t` replaced by a newline. -/
theorem claim_C1_trailing_line_truncated (t b : List Nat)
    (hascii : ∀ x ∈ t, x ≤ 127) (hnl : 10 ∉ t) (hlen : 2 ≤ t.length) :
    parse (b ++ 10 :: t) = parse (b ++ 10 :: (t.dropLast ++ [10])) ∧
    parse t = parse (t.dropLast ++ [10]) := by
  have hne : t ≠ [] := by
    intro h0
    subst h0
    simp at hlen
  have hnl2 : 10 ∉ t.dropLast := fun hm => hnl (List.dropLast_subset t hm)
  have hvt : utf8Valid t = true := utf8Valid_of_ascii t hascii
  have hvt2 : utf8Valid (t.dropLast ++ [10]) = true := by
    apply utf8Valid_of_ascii
    intro x hx
    rcases List.mem_append.mp hx with h | h
    · exact hascii x (List.dropLast_subset t h)
    · simp at h
      omega
  have hld : ¬ t.length ≤ 1 := by omega
  have hld2 : ¬ (t.dropLast ++ [10]).length ≤ 1 := by
    simp only [List.length_append, List.length_dropLast, List.length_cons,
      List.length_nil]
    omega
  have hdd : (t.dropLast ++ [10]).dropLast = t.dropLast := by simp
  have hstep : lineStep t = lineStep (t.dropLast ++ [10]) := by
    unfold lineStep
    rw [if_pos hvt, if_pos hvt2, if_neg hld, if_neg hld2, hdd]
  constructor
  · unfold parse
    rw [toChunks_append_cons b t, toChunks_append_cons b (t.dropLast ++ [10]),
        toChunks_nosep t hnl hne, toChunks_concat t.dropLast hnl2,
        processChunks_append, processChunks_append]
    cases hres : processChunks (toChunks (b ++ [10])) [] with
    | ok A =>
      show processChunks [t] A = processChunks [t.dropLast ++ [10]] A
      rw [processChunks_single, processChunks_single, hstep]
    | error e => rfl
  · unfold parse
    rw [toChunks_nosep t hnl hne, toChunks_concat t.dropLast hnl2,
        processChunks_single, processChunks_single, hstep]

/-- Claim C1 counterexample: the input "a\ttrue\t/\ttrue\t0\tn\tvX" has no
newline-terminated line at all, so under the claim the scan would stop at
once and return no records; instead the parser processes the unterminated
final line with its last byte dropped and returns one record whose value is
"v" (the "X" is lost). -/
theorem claim_C1_counterexample :
    parse (bytesOfAscii "a\ttrue\t/\ttrue\t0\tn\tvX") =
      .ok [⟨false, [97], true, [47], true, .Session, [110], [118]⟩] ∧
    terminatedLines (bytesOfAscii "a\ttrue\t/\ttrue\t0\tn\tvX") = [] := by
  exact ⟨by rfl, by rfl⟩

/-- Claim C1 witness: the amended statement at the concrete input
"#c\nab". -/
theorem claim_C1_witness :
    parse (bytesOfAscii "#c" ++ 10 :: bytesOfAscii "ab") =
      parse (bytesOfAscii "#c" ++ 10 :: ((bytesOfAscii "ab").dropLast ++ [10])) ∧
    parse (bytesOfAscii "ab") = parse ((bytesOfAscii "ab").dropLast ++ [10]) :=
  claim_C1_trailing_line_truncated (bytesOfAscii "ab") (bytesOfAscii "#c")
    (by decide) (by decide) (by decide)

/-- Claim C2 (amended): for an input all of whose chunks are valid UTF-8
and end with a newline (or are a single byte, covering an empty or one-byte
trailing fragment), if every relevant (non-empty, non-comment) terminated
line is well-formed then parse returns Ok with exactly one record per such
line, in file order; empty lines and comment lines contribute no record. -/
theorem claim_C2_one_record_per_line (bytes : List Nat)
    (h1 : ∀ ch ∈ toChunks bytes, utf8Valid ch = true)
    (h2 : ∀ ch ∈ toChunks bytes, ch.getLast? = some 10 ∨ ch.length = 1)
    (h3 : ∀ l ∈ terminatedLines bytes,
          relevantLine l = true → wellFormedLine l = true) :
    parse bytes = .ok
      (((terminatedLines bytes).filter fun l => relevantLine l).map
        recordOfLine) := by
  have h3c : ∀ ch ∈ toChunks bytes, ch.getLast? = some 10 →
      relevantLine ch.dropLast = true → wellFormedLine ch.dropLast = true := by
    intro ch hm hgl hrel
    refine h3 ch.dropLast ?_ hrel
    unfold terminatedLines
    exact List.mem_filterMap.mpr ⟨ch, hm, by simp [hgl]⟩
  unfold parse
  rw [processChunks_wf (toChunks bytes) h1 h2 h3c []]
  simp [terminatedLines]

/-- Claim C2 counterexample: in the input "x\ty" every terminated line
(there are none) is well-formed, yet parse is not Ok: the unterminated
fragment is processed with its last byte dropped, leaving fields "x" and
"" whose second field is an invalid boolean. -/
theorem claim_C2_counterexample :
    terminatedLines (bytesOfAscii "x\ty") = [] ∧
    parse (bytesOfAscii "x\ty") = .error (.IncludeSubdomainsInvalid ⟨⟩) := by
  exact ⟨by rfl, by rfl⟩

/-- Claim C2 witness: the amended statement at a concrete input with a
comment line, an empty line and one well-formed data line. -/
theorem claim_C2_witness :
    parse (bytesOfAscii "# c\n\na\ttrue\t/\tTRUE\t0\tn\tv\n") = .ok
      (((terminatedLines (bytesOfAscii "# c\n\na\ttrue\t/\tTRUE\t0\tn\tv\n")).filter
        fun l => relevantLine l).map recordOfLine) :=
  claim_C2_one_record_per_line _ (by decide) (by decide) (by decide)

/-- Claim C3 (amended): for a well-formed relevant line whose expires field
parses to the integer `tv`, the record's expiry is `Session` when `tv = 0`
and `DateTime tv` (second-exact) when `tv` is positive.  Well-formedness
bounds `tv` by `chronoMaxTimestamp`, the largest second chrono can
represent: beyond it the source panics, and from 2^63 the `as i64` cast
wraps, so the original claim's "any positive integer" fails (see the
counterexample). -/
theorem claim_C3_expires_mapping (l : List Nat) (tv : Nat)
    (hu : utf8Valid (l ++ [10]) = true)
    (hr : relevantLine l = true)
    (hw : wellFormedLine l = true)
    (hnl : 10 ∉ l)
    (hv : parseU64 ((lineFields l).getD 4 []) = .ok tv) :
    parse (l ++ [10]) = .ok [recordOfLine l] ∧
    (recordOfLine l).expires =
      (if tv = 0 then CookieExpires.Session
       else CookieExpires.DateTime (tv : Int)) := by
  obtain ⟨d, isd, p, sec, exp, nm, vl, b1, b2, tv2, hfs, hb1, hb2, hv2, htvle,
          hrec, hstep⟩ := lineStep_wf_full l hu hr hw
  have hexp : (lineFields l).getD 4 [] = exp := by
    rw [hfs]
    rfl
  rw [hexp, hv2] at hv
  have htv : tv2 = tv := Except.ok.inj hv
  subst htv
  constructor
  · unfold parse
    rw [toChunks_concat l hnl, processChunks_single, hstep]
    simp
  · rw [hrec]
    show (if tv2 = 0 then CookieExpires.Session
          else CookieExpires.DateTime (wrap64 tv2)) = _
    have h8 : tv2 ≤ 8210298412799 := htvle
    have hwrap : wrap64 tv2 = (tv2 : Int) := by
      unfold wrap64
      rw [if_pos (by omega)]
    rw [hwrap]

/-- Claim C3 counterexample: the expires field 18446744073709551615 (the
largest u64) parses successfully, but the record's expiry timestamp is -1,
produced by the `as i64` cast, not 18446744073709551615 as the claim
demands. -/
theorem claim_C3_counterexample :
    parse (bytesOfAscii "a\ttrue\t/\ttrue\t18446744073709551615\tn\tv\n") =
      .ok [⟨false, [97], true, [47], true, .DateTime (-1), [110], [118]⟩] ∧
    decide (CookieExpires.DateTime (-1) =
      CookieExpires.DateTime ((18446744073709551615 : Nat) : Int)) = false := by
  exact ⟨by rfl, by rfl⟩

/-- Claim C3 witness: the amended statement at a concrete line with a
positive timestamp. -/
theorem claim_C3_witness :
    parse (bytesOfAscii "a\ttrue\t/\ttrue\t1640586740\tn\tv" ++ [10]) =
      .ok [recordOfLine (bytesOfAscii "a\ttrue\t/\ttrue\t1640586740\tn\tv")] ∧
    (recordOfLine (bytesOfAscii "a\ttrue\t/\ttrue\t1640586740\tn\tv")).expires =
      (if (1640586740 : Nat) = 0 then CookieExpires.Session
       else CookieExpires.DateTime ((1640586740 : Nat) : Int)) :=
  claim_C3_expires_mapping (bytesOfAscii "a\ttrue\t/\ttrue\t1640586740\tn\tv")
    1640586740 (by decide) (by decide) (by decide) (by decide) (by rfl)

/-- Claim C4 (amended): a relevant line with k tab-separated fields after
the optional marker strip, 1 ≤ k ≤ 6, whose present typed fields (the
booleans at positions 2 and 4, the integer at position 5) are valid, makes
the whole parse abort with the missing-field error for field k+1, the first
absent field in positional order; the validity proviso is necessary because
field validation is interleaved with extraction (see the counterexample). -/
theorem claim_C4_missing_field_error (b l rest : List Nat)
    (hb : b = [] ∨ b.getLast? = some 10)
    (hok : ∀ ch ∈ toChunks b, stepOk ch = true)
    (hu : utf8Valid (l ++ [10]) = true)
    (hr : relevantLine l = true)
    (hnl : 10 ∉ l)
    (hk1 : 1 ≤ (lineFields l).length)
    (hk6 : (lineFields l).length ≤ 6)
    (hp : presentFieldsOk (lineFields l) = true) :
    parse (b ++ (l ++ [10]) ++ rest) =
      .error (missingFor ((lineFields l).length + 1)) := by
  apply parse_line_error b l rest _ hb hok hnl
  rw [lineStep_concat l hu hr, cookieOfFields_missing _ _ hk1 hk6 hp]

/-- Claim C4 counterexample: the line "a\tb" has 2 fields, so the claim
demands PathMissing (the error for field 3); but the second field "b" is an
invalid boolean and the parser reports IncludeSubdomainsInvalid instead. -/
theorem claim_C4_counterexample :
    parse (bytesOfAscii "a\tb\n") = .error (.IncludeSubdomainsInvalid ⟨⟩) ∧
    (lineFields (bytesOfAscii "a\tb")).length = 2 ∧
    decide ((ParseError.IncludeSubdomainsInvalid ⟨⟩) = missingFor 3) = false := by
  exact ⟨by rfl, by rfl, by rfl⟩

/-- Claim C4 witness: the amended statement at the two-field line
"a\ttrue", which aborts with PathMissing. -/
theorem claim_C4_witness :
    parse (([] : List Nat) ++ (bytesOfAscii "a\ttrue" ++ [10]) ++ []) =
      .error (missingFor ((lineFields (bytesOfAscii "a\ttrue")).length + 1)) :=
  claim_C4_missing_field_error [] (bytesOfAscii "a\ttrue") [] (Or.inl rfl)
    (by decide) (by decide) (by decide) (by decide) (by decide) (by decide)
    (by decide)

/-- Claim C5 (amended): a relevant line with 8 or more tab-separated fields
after the marker strip, whose typed fields (positions 2, 4 and 5) are
valid, makes the whole parse abort with TooManyElements rather than
silently truncating; the validity proviso is necessary because a malformed
typed field errors out first (see the counterexample). -/
theorem claim_C5_too_many_elements (b l rest : List Nat)
    (hb : b = [] ∨ b.getLast? = some 10)
    (hok : ∀ ch ∈ toChunks b, stepOk ch = true)
    (hu : utf8Valid (l ++ [10]) = true)
    (hr : relevantLine l = true)
    (hnl : 10 ∉ l)
    (hk8 : 8 ≤ (lineFields l).length)
    (hp : presentFieldsOk (lineFields l) = true) :
    parse (b ++ (l ++ [10]) ++ rest) = .error .TooManyElements := by
  apply parse_line_error b l rest _ hb hok hnl
  rw [lineStep_concat l hu hr]
  rcases hfs : lineFields l with _ | ⟨f1, fs⟩
  · rw [hfs] at hk8
    simp at hk8
  rcases fs with _ | ⟨f2, fs⟩
  · rw [hfs] at hk8
    simp at hk8
  rcases fs with _ | ⟨f3, fs⟩
  · rw [hfs] at hk8
    simp at hk8
  rcases fs with _ | ⟨f4, fs⟩
  · rw [hfs] at hk8
    simp at hk8
  rcases fs with _ | ⟨f5, fs⟩
  · rw [hfs] at hk8
    simp at hk8
  rcases fs with _ | ⟨f6, fs⟩
  · rw [hfs] at hk8
    simp at hk8
  rcases fs with _ | ⟨f7, fs⟩
  · rw [hfs] at hk8
    simp at hk8
  rcases fs with _ | ⟨f8, fs⟩
  · rw [hfs] at hk8
    simp at hk8
  · rw [hfs] at hp
    simp [presentFieldsOk, optFieldOk] at hp
    rw [cookieOfFields_toomany _ f1 f2 f3 f4 f5 f6 f7 f8 fs hp.1.1 hp.1.2 hp.2]

/-- Claim C5 counterexample: the line "a\tb\t/\tc\t0\tn\tv\tz" has 8
fields, so the claim demands TooManyElements; but the second field "b" is
an invalid boolean and the parser reports IncludeSubdomainsInvalid
instead. -/
theorem claim_C5_counterexample :
    parse (bytesOfAscii "a\tb\t/\tc\t0\tn\tv\tz\n") =
      .error (.IncludeSubdomainsInvalid ⟨⟩) ∧
    (lineFields (bytesOfAscii "a\tb\t/\tc\t0\tn\tv\tz")).length = 8 ∧
    decide ((ParseError.IncludeSubdomainsInvalid ⟨⟩) =
      ParseError.TooManyElements) = false := by
  exact ⟨by rfl, by rfl, by rfl⟩

/-- Claim C5 witness: the amended statement at the 8-field line
"a\ttrue\t/\ttrue\t0\tn\tv\tz". -/
theorem claim_C5_witness :
    parse (([] : List Nat) ++ (bytesOfAscii "a\ttrue\t/\ttrue\t0\tn\tv\tz" ++ [10]) ++ []) =
      .error .TooManyElements :=
  claim_C5_too_many_elements [] (bytesOfAscii "a\ttrue\t/\ttrue\t0\tn\tv\tz") []
    (Or.inl rfl) (by decide) (by decide) (by decide) (by decide) (by decide)
    (by decide)

/-- Claim C6 (amended): for a terminated line made of the literal
`#HttpOnly_` marker followed by a remainder that is non-empty and does not
itself begin with '#', parsing the marked line equals parsing the unmarked
line with every resulting record's http_only flag forced on (records agree
on all other fields; errors coincide).  The proviso on the remainder is
necessary: a remainder starting with '#' is a comment once the marker is
absent, so the unmarked line yields no record at all (see the
counterexample). -/
theorem claim_C6_httponly_prefix (r : List Nat)
    (hu1 : utf8Valid (httpOnlyMarker ++ r ++ [10]) = true)
    (hu2 : utf8Valid (r ++ [10]) = true)
    (hnl : 10 ∉ r)
    (hne : r ≠ [])
    (h35 : r.head? ≠ some 35) :
    parse (httpOnlyMarker ++ r ++ [10]) =
      (parse (r ++ [10])).map (List.map withHttpOnly) := by
  have hnlm : 10 ∉ httpOnlyMarker ++ r := by
    intro hm
    rcases List.mem_append.mp hm with h | h
    · simp [httpOnlyMarker] at h
    · exact hnl h
  have hpre := marker_not_prefix r h35
  have hrel : relevantLine r = true := by
    simp [relevantLine, isCommentLine, hne, h35]
  have hmlen : ¬ ((httpOnlyMarker ++ r) ++ [10]).length ≤ 1 := by
    simp [httpOnlyMarker, List.length_append]
  have hstep1 : lineStep ((httpOnlyMarker ++ r) ++ [10]) =
      match cookieOfFields true (splitTab r) with
      | .ok c => .done c
      | .error e => .fail e := by
    unfold lineStep
    rw [if_pos hu1, if_neg hmlen]
    simp only [List.dropLast_concat]
    rw [if_pos (marker_prefix_append r), marker_drop r]
  have hstep2 : lineStep (r ++ [10]) =
      match cookieOfFields false (splitTab r) with
      | .ok c => .done c
      | .error e => .fail e := by
    rw [lineStep_concat r hu2 hrel]
    simp [lineFields, hpre]
  unfold parse
  rw [toChunks_concat _ hnlm, toChunks_concat r hnl,
      processChunks_single, processChunks_single, hstep1, hstep2,
      cookieOfFields_http_only (splitTab r)]
  cases hc : cookieOfFields false (splitTab r) with
  | ok c => simp [Except.map]
  | error e => simp [Except.map]

/-- Claim C6 counterexample: the marked line "#HttpOnly_#a\t..." yields a
record with http_only = true and domain "#a", but the same line with the
marker absent is a comment and yields no record at all, so the prefixless
parse does not produce the same fields with http_only = false. -/
theorem claim_C6_counterexample :
    parse (bytesOfAscii "#HttpOnly_#a\ttrue\t/\ttrue\t0\tn\tv\n") =
      .ok [⟨true, [35, 97], true, [47], true, .Session, [110], [118]⟩] ∧
    parse (bytesOfAscii "#a\ttrue\t/\ttrue\t0\tn\tv\n") = .ok [] := by
  exact ⟨by rfl, by rfl⟩

/-- Claim C6 witness: the amended statement at the concrete remainder
"a\ttrue\t/\ttrue\t0\tn\tv". -/
theorem claim_C6_witness :
    parse (httpOnlyMarker ++ bytesOfAscii "a\ttrue\t/\ttrue\t0\tn\tv" ++ [10]) =
      (parse (bytesOfAscii "a\ttrue\t/\ttrue\t0\tn\tv" ++ [10])).map
        (List.map withHttpOnly) :=
  claim_C6_httponly_prefix (bytesOfAscii "a\ttrue\t/\ttrue\t0\tn\tv")
    (by decide) (by decide) (by decide) (by decide) (by decide)

/-- Claim C7 (amended): a valid-UTF-8 terminated line that begins with '#'
but not with `#HttpOnly_` is a comment: parse of an input containing it (at
a line boundary) equals parse of the same input with the line removed.
UTF-8 validity is necessary: `read_line` checks it before the comment test,
so a comment line with invalid bytes aborts the parse with an I/O error
(see the counterexample). -/
theorem claim_C7_comment_line_skipped (l b c : List Nat)
    (hu : utf8Valid (l ++ [10]) = true)
    (h35 : l.head? = some 35)
    (hpre : httpOnlyMarker.isPrefixOf l = false)
    (hnl : 10 ∉ l)
    (hb : b = [] ∨ b.getLast? = some 10) :
    parse (b ++ (l ++ [10]) ++ c) = parse (b ++ c) := by
  have hne : l ≠ [] := by
    intro h0
    subst h0
    simp at h35
  have hrel : relevantLine l = false := by
    simp [relevantLine, isCommentLine, h35, hpre]
  have hstep := lineStep_skip_of_irrelevant l hu hrel
  have hchunks : toChunks (b ++ (l ++ [10]) ++ c) =
      toChunks b ++ ([l ++ [10]] ++ toChunks c) := by
    rw [List.append_assoc, toChunks_term_append b _ hb]
    congr 1
    have hassoc : (l ++ [10]) ++ c = l ++ 10 :: c := by simp
    rw [hassoc, toChunks_append_cons, toChunks_concat l hnl]
  unfold parse
  rw [hchunks, toChunks_term_append b c hb, processChunks_append,
      processChunks_append]
  cases hres : processChunks (toChunks b) [] with
  | ok A =>
    show processChunks ([l ++ [10]] ++ toChunks c) A =
      processChunks (toChunks c) A
    rw [processChunks_append, processChunks_single, hstep]
  | error e => rfl

/-- Claim C7 counterexample: the comment line bytes 0x23 0xFF 0x0A begin
with '#' and are not the HttpOnly marker, yet they do not disappear: the
UTF-8 check of `read_line` fails first and the whole parse aborts with an
I/O error, unlike the parse of the input with the line removed. -/
theorem claim_C7_counterexample :
    parse [35, 255, 10] = .error (.IoError .InvalidData invalidUtf8Msg) ∧
    parse ([] : List Nat) = .ok [] ∧
    decide (parse [35, 255, 10] = parse ([] : List Nat)) = false := by
  exact ⟨by rfl, by rfl, by rfl⟩

/-- Claim C7 witness: the amended statement with the comment line "# x"
followed by one data line. -/
theorem claim_C7_witness :
    parse (([] : List Nat) ++ (bytesOfAscii "# x" ++ [10]) ++
        bytesOfAscii "a\ttrue\t/\ttrue\t0\tn\tv\n") =
      parse (([] : List Nat) ++ bytesOfAscii "a\ttrue\t/\ttrue\t0\tn\tv\n") :=
  claim_C7_comment_line_skipped (bytesOfAscii "# x") []
    (bytesOfAscii "a\ttrue\t/\ttrue\t0\tn\tv\n")
    (by decide) (by decide) (by decide) (by decide) (Or.inl rfl)
